import Mathlib

/-!
Verification of the bzlmod MODULE.bazel editing core (edit/bzlmod/bzlmod.go).

The statement tree of a parsed MODULE.bazel file is embedded shallowly:
the build.Expr interface becomes the inductive `Bzlmod.Expr`, covering
exactly the concrete node kinds the package inspects (Ident, StringExpr,
CallExpr, AssignExpr, DotExpr).  Go maps used purely for membership are
embedded as lists with `contains`; Go maps used as dictionaries are
embedded as association lists with overwrite-on-insert.  The external
collaborators (the label parser `labels.ParseRelative` / `labels.Parse`
with `path.Join`, and the fragment content provider) are taken as
function parameters, exactly as the spec declares them out of scope and
specified only at their interface.
-/

namespace Bzlmod

/-- Shallow embedding of the build.Expr statement/expression tree, restricted
to the node kinds inspected by the bzlmod package:
`ident` = build.Ident, `str` = build.StringExpr,
`call x args posByte` = build.CallExpr (with its position byte, used by
getLastUseRepo), `assign lhs rhs` = build.AssignExpr, `dot x field` =
build.DotExpr. -/
inductive Expr where
  | ident (name : String)
  | str (value : String)
  | call (x : Expr) (args : List Expr) (posByte : Nat)
  | assign (lhs : Expr) (rhs : Expr)
  | dot (x : Expr) (field : String)
deriving Repr

/-- A build.CallExpr value as manipulated through a typed pointer by
AddRepoUsages / RemoveRepoUsages: callee, argument list and position byte. -/
structure CallExpr where
  x : Expr
  args : List Expr
  posByte : Nat
deriving Repr

/-- The five named results of parseUseExtension, zero-valued on failure
exactly as in Go (empty strings, false booleans). -/
structure UseExt where
  proxy : String
  bzlFile : String
  extName : String
  dev : Bool
  isolate : Bool
deriving Repr, DecidableEq

/-- The Go zero value of parseUseExtension's named results. -/
def noUseExt : UseExt := ⟨"", "", "", false, false⟩

/-- parseBooleanKeywordArg: an argument sets the flag only when it is a
keyword assignment to an identifier with the given name; the value is false
exactly when the right-hand side is the literal identifier False, and any
other right-hand side yields true. -/
def parseBooleanKeywordArg (arg : Expr) (name : String) : Bool :=
  match arg with
  | .assign (.ident argName) rhs =>
    if argName != name then false
    else
      match rhs with
      | .ident v => v != "False"
      | _ => true
  | _ => false

/-- parseUseExtension: recognizes `proxy = use_extension(bzlFile, name, ...)`
with the two leading positional string arguments, then folds the remaining
arguments for the dev_dependency and isolate keyword flags. -/
def parseUseExtension (stmt : Expr) : UseExt :=
  match stmt with
  | .assign (.ident lhsName) (.call (.ident fn) args _) =>
    if fn != "use_extension" then noUseExt
    else
      match args with
      | .str bzl :: .str nm :: rest =>
        let flags := rest.foldl
          (fun acc arg =>
            (acc.1 || parseBooleanKeywordArg arg "dev_dependency",
             acc.2 || parseBooleanKeywordArg arg "isolate"))
          (false, false)
        ⟨lhsName, bzl, nm, flags.1, flags.2⟩
      | _ => noUseExt
  | _ => noUseExt

/-- parseTag: recognizes `proxy.tagName(...)` and returns the proxy name,
or the empty string on any other shape. -/
def parseTag (stmt : Expr) : String :=
  match stmt with
  | .call (.dot (.ident n) _) _ _ => n
  | _ => ""

/-- Modelled from the spec: build.Rule.AttrString (the build package is
repository code not under src/).  Returns the string value of the first
keyword assignment to an identifier with the given key, or the empty
string when that assignment's right-hand side is not a string literal or
no such assignment exists. -/
def attrString (args : List Expr) (key : String) : String :=
  match args.find? (fun a =>
    match a with
    | .assign (.ident k) _ => k == key
    | _ => false) with
  | some (.assign _ (.str v)) => v
  | _ => ""

/-- getApparentModuleName: scans for `module(...)` declarations, preferring
the repo_name attribute over the name attribute, last occurrence winning.
`f.Rules "module"` (build package, not under src/) is modelled from the
spec as the calls whose callee is the identifier module. -/
def getApparentModuleName (stmts : List Expr) : String :=
  stmts.foldl
    (fun acc stmt =>
      match stmt with
      | .call (.ident fn) args _ =>
        if fn == "module" then
          let rn := attrString args "repo_name"
          if rn != "" then rn
          else
            let n := attrString args "name"
            if n != "" then n else acc
        else acc
      | _ => acc)
    ""

/-- Proxies: the proxy names of all non-isolated use_extension assignments
for the given extension and dev_dependency value, in file order.
`normalize` stands for normalizeLabelString, whose label parser is the
external collaborator; it is threaded as a parameter. -/
def Proxies (normalize : String → String → String) (stmts : List Expr)
    (rawExtBzlFile extName : String) (dev : Bool) : List String :=
  let apparent := getApparentModuleName stmts
  let extBzlFile := normalize rawExtBzlFile apparent
  stmts.filterMap (fun stmt =>
    let u := parseUseExtension stmt
    if u.proxy == "" || u.dev != dev || u.isolate then none
    else if normalize u.bzlFile apparent == extBzlFile && u.extName == extName then
      some u.proxy
    else none)

/-- AllProxies: finds the first statement whose parseUseExtension proxy
equals the given proxy; for an isolated usage returns the singleton,
otherwise delegates to Proxies with that usage's own identity; returns the
empty list when no statement matches. -/
def AllProxies (normalize : String → String → String) (stmts : List Expr)
    (proxy : String) : List String :=
  match stmts.find? (fun s => (parseUseExtension s).proxy == proxy) with
  | some s =>
    let u := parseUseExtension s
    if u.isolate then [proxy]
    else Proxies normalize stmts u.bzlFile u.extName u.dev
  | none => []

/-- Claim-side predicate: the statement is a use_extension assignment
binding the identifier p, that is, an assignment whose left-hand side is
the identifier p and whose right-hand side is a call to use_extension. -/
def definesProxy (stmt : Expr) (p : String) : Bool :=
  match stmt with
  | .assign (.ident q) (.call (.ident fn) _ _) => q == p && fn == "use_extension"
  | _ => false

/-- Claim-side definition, following the words of the spec: the proxies, in
file order, of all non-isolated use_extension assignments whose normalized
bzl file, exported name and dev_dependency flag equal those of the given
usage. -/
def proxiesMatchingUsage (normalize : String → String → String)
    (stmts : List Expr) (u : UseExt) : List String :=
  let apparent := getApparentModuleName stmts
  stmts.filterMap (fun stmt =>
    let v := parseUseExtension stmt
    if v.proxy != "" && !v.isolate && v.dev == u.dev
        && normalize v.bzlFile apparent == normalize u.bzlFile apparent
        && v.extName == u.extName then
      some v.proxy
    else none)

/-- repoFromUseRepoArg: the repository name exported by the module extension,
extracted from a use_repo argument: the literal value of a bare string, the
right-hand string value of a keyword assignment, and the empty string for
every other argument shape. -/
def repoFromUseRepoArg (arg : Expr) : String :=
  match arg with
  | .str v => v
  | .assign _ (.str v) => v
  | _ => ""

/-- The auxiliary loop of getLastUseRepo: keeps the first call whose
position byte is strictly greater than the current best, together with its
index in the original list. -/
def lastUseRepoAux : List CallExpr → Nat → Option (Nat × CallExpr) → Option (Nat × CallExpr)
  | [], _, best => best
  | c :: rest, i, best =>
    let best' :=
      match best with
      | none => some (i, c)
      | some (j, d) => if c.posByte > d.posByte then some (i, c) else some (j, d)
    lastUseRepoAux rest (i + 1) best'

/-- getLastUseRepo: selects the use_repo call with the greatest position
byte (the textually last one); on ties the earliest such call wins, since
the comparison is strict.  The index into the list is returned alongside,
standing for the Go pointer through which the call is mutated. -/
def getLastUseRepo (useRepos : List CallExpr) : Option (Nat × CallExpr) :=
  lastUseRepoAux useRepos 0 none

/-- The seen set of AddRepoUsages: the exported repository names of all
arguments past the leading proxy reference, across all given statements,
with calls that have an empty argument list skipped. -/
def seenRepos (useRepos : List CallExpr) : List String :=
  useRepos.foldl
    (fun acc ur =>
      if ur.args.isEmpty then acc
      else acc ++ ur.args.tail.map repoFromUseRepoArg)
    []

/-- AddRepoUsages: returns immediately when the requested list is empty;
panics (modelled as none) when the target list is empty; otherwise appends
one bare string argument to the textually last call for each requested
name not already in the seen set, in the caller-supplied order.  The seen
set is computed once up front and not updated while appending. -/
def AddRepoUsages (useRepos : List CallExpr) (repos : List String) :
    Option (List CallExpr) :=
  if repos.isEmpty then some useRepos
  else if useRepos.isEmpty then none
  else
    let seen := seenRepos useRepos
    match getLastUseRepo useRepos with
    | none => some useRepos
    | some (j, d) =>
      let toAdd := (repos.filter (fun r => !seen.contains r)).map Expr.str
      some (useRepos.set j { d with args := d.args ++ toAdd })

/-- The per-statement body of RemoveRepoUsages: calls with an empty
argument list are skipped; otherwise the argument list is rebuilt keeping
position 0 and dropping every later argument whose extracted name is in
the removal set. -/
def removeReposFromCall (toRemove : List String) (ur : CallExpr) : CallExpr :=
  if ur.args.isEmpty then ur
  else
    { ur with
      args := ur.args.take 1
        ++ ur.args.tail.filter (fun arg => !toRemove.contains (repoFromUseRepoArg arg)) }

/-- RemoveRepoUsages: a no-op when either input list is empty, otherwise
rebuilds every statement's argument list in place. -/
def RemoveRepoUsages (useRepos : List CallExpr) (repos : List String) :
    List CallExpr :=
  if useRepos.isEmpty || repos.isEmpty then useRepos
  else useRepos.map (removeReposFromCall repos)

/-- The usage proxy of a single statement with respect to a proxy set: the
proxy of a use_extension assignment when nonempty and in the set, else the
base of a tag call when nonempty and in the set, else none.  This mirrors
the per-statement update of lastProxyUsage; an empty name never matches,
since an empty string is not an identifier. -/
def usageProxy (proxies : List String) (stmt : Expr) : Option String :=
  let p := (parseUseExtension stmt).proxy
  if p != "" && proxies.contains p then some p
  else
    let t := parseTag stmt
    if t != "" && proxies.contains t then some t
    else none

/-- The loop of lastProxyUsage: scans statements in order, recording the
index and proxy of every statement that uses one of the given proxies, the
last one winning. -/
def lastUsageAux (proxies : List String) :
    List Expr → Nat → Option (Nat × String) → Option (Nat × String)
  | [], _, best => best
  | stmt :: rest, i, best =>
    let best' :=
      match usageProxy proxies stmt with
      | some p => some (i, p)
      | none => best
    lastUsageAux proxies rest (i + 1) best'

/-- lastProxyUsage: the index of the last statement using one of the given
proxies, together with the proxy it uses; none when no statement does
(Go returns -1). -/
def lastProxyUsage (stmts : List Expr) (proxies : List String) :
    Option (Nat × String) :=
  lastUsageAux proxies stmts 0 none

/-- A Go slice of statements: the contents of the whole backing array
(whose length is the capacity) together with the slice length.  The file's
statement sequence f.Stmt is such a slice at offset zero. -/
structure GoSlice where
  arr : List Expr
  len : Nat
deriving Repr

/-- The statement sequence a holder of the slice observes. -/
def GoSlice.view (s : GoSlice) : List Expr := s.arr.take s.len

/-- Overwrites the cells of a backing array starting at index i with the
given elements, leaving the cells before and after unchanged. -/
def writeAt (arr : List Expr) (i : Nat) (elems : List Expr) : List Expr :=
  arr.take i ++ elems ++ arr.drop (i + elems.length)

/-- Go append on a slice at offset zero: when the backing array has room
for the combined length, the new elements are written into the backing
array in place; otherwise a fresh backing array is allocated.  The second
component is the backing array contents as observed through any other
slice of the same array after the call. -/
def goAppend (s : GoSlice) (elems : List Expr) : GoSlice × List Expr :=
  if s.len + elems.length ≤ s.arr.length then
    let arr2 := writeAt s.arr s.len elems
    (⟨arr2, s.len + elems.length⟩, arr2)
  else
    (⟨s.view ++ elems, s.len + elems.length⟩, s.arr)

/-- NewUseRepo: when no statement uses one of the proxies, returns the
file unchanged and no new statement; otherwise synthesizes
use_repo(proxy) for the proxy of the last usage and splices it in right
after that statement via `append(f.Stmt[:i+1], append([]Expr{u}, f.Stmt[i+1:]...)...)`.
Returns the new file's statement slice, the new call, and the contents of
the original file's backing array after the call. -/
def NewUseRepo (fStmt : GoSlice) (proxies : List String) :
    GoSlice × Option Expr × List Expr :=
  match lastProxyUsage fStmt.view proxies with
  | none => (fStmt, none, fStmt.arr)
  | some (lastUsage, proxy) =>
    let useRepo : Expr := .call (.ident "use_repo") [.ident proxy] 0
    let tailCopy := useRepo :: fStmt.view.drop (lastUsage + 1)
    let res := goAppend ⟨fStmt.arr, lastUsage + 1⟩ tailCopy
    (res.1, some useRepo, res.2)

/-- Insertion into a Go map embedded as an association list: assignment
overwrites the value of an existing key and otherwise appends a fresh
entry. -/
def insertMap (m : List (String × String)) (k v : String) :
    List (String × String) :=
  if m.any (fun kv => kv.1 == k) then
    m.map (fun kv => if kv.1 == k then (k, v) else kv)
  else m ++ [(k, v)]

/-- Lookup in a Go map embedded as an association list. -/
def lookupMap (m : List (String × String)) (k : String) : Option String :=
  (m.find? (fun kv => kv.1 == k)).map Prod.snd

/-- collectApparentNamesAndIncludes: one pass over a fragment's statements.
Rules without an explicit name attribute contribute an include label when
they are `include` calls with exactly one string argument; module and
bazel_dep rules with a name attribute record name to repo_name when
repo_name is set, else name to itself.  `f.Rules ""` and
`Rule.ExplicitName` (build package, not under src/) are modelled from the
spec as the calls whose callee is an identifier, with the explicit name
being the name string attribute. -/
def collectApparentNamesAndIncludes (stmts : List Expr) :
    List (String × String) × List String :=
  stmts.foldl
    (fun acc stmt =>
      match stmt with
      | .call (.ident fn) args _ =>
        if attrString args "name" == "" then
          if fn == "include" then
            match args with
            | [.str v] => (acc.1, acc.2 ++ [v])
            | _ => acc
          else acc
        else if fn == "module" || fn == "bazel_dep" then
          let nm := attrString args "name"
          if nm != "" then
            let rn := attrString args "repo_name"
            if rn != "" then (insertMap acc.1 nm rn, acc.2)
            else (insertMap acc.1 nm nm, acc.2)
          else acc
        else acc
      | _ => acc)
    ([], [])

/-- The loop state of collectApparentNames: the accumulated mapping, the
visited set, the work queue, and (as instrumentation only, never read by
the algorithm) the paths passed to the fragment provider so far, in
order. -/
structure TraversalState where
  apparentNames : List (String × String)
  seenFiles : List String
  filesToProcess : List String
  reads : List String
deriving Repr, DecidableEq

/-- The outcome of the traversal: the fuel of the model ran out (never the
Go program, which simply loops on), the provider signalled absence (Go
returns nil), or the traversal completed with the accumulated mapping.
Each outcome carries the instrumented read list. -/
inductive Outcome where
  | outOfFuel (st : TraversalState)
  | absent (reads : List String)
  | done (apparentNames : List (String × String)) (reads : List String)
deriving Repr, DecidableEq

/-- True exactly on the fuel-exhaustion artifact of the model. -/
def Outcome.isOutOfFuel : Outcome → Bool
  | .outOfFuel _ => true
  | _ => false

/-- The instrumented read list of an outcome. -/
def Outcome.readsOf : Outcome → List String
  | .outOfFuel st => st.reads
  | .absent r => r
  | .done _ r => r

/-- The loop of collectApparentNames, with an explicit fuel standing for
the number of loop iterations the model may take: dequeue a path; skip it
when already seen; otherwise mark it seen, read it (absence aborts the
whole traversal), merge its name mapping and enqueue its resolved include
labels.  `fileReader` is the fragment content provider and `resolveLabel`
the external label parser composed with the package/target path join, both
collaborators outside this package. -/
def collectRun (fileReader : String → Option (List Expr))
    (resolveLabel : String → String) : Nat → TraversalState → Outcome
  | 0, st => .outOfFuel st
  | fuel + 1, st =>
    match st.filesToProcess with
    | [] => .done st.apparentNames st.reads
    | f :: rest =>
      if st.seenFiles.contains f then
        collectRun fileReader resolveLabel fuel { st with filesToProcess := rest }
      else
        let reads' := st.reads ++ [f]
        match fileReader f with
        | none => .absent reads'
        | some bf =>
          let coll := collectApparentNamesAndIncludes bf
          let newMap := coll.1.foldl (fun m kv => insertMap m kv.1 kv.2) st.apparentNames
          collectRun fileReader resolveLabel fuel
            { apparentNames := newMap
              seenFiles := st.seenFiles ++ [f]
              filesToProcess := rest ++ coll.2.map resolveLabel
              reads := reads' }

/-- collectApparentNames: the traversal started on the given root path with
an empty mapping, visited set and read list. -/
def collectApparentNames (fileReader : String → Option (List Expr))
    (resolveLabel : String → String) (relPath : String) (fuel : Nat) : Outcome :=
  collectRun fileReader resolveLabel fuel ⟨[], [], [relPath], []⟩

/-- The resolved include paths a fragment provider yields for a path:
empty when the path is absent. -/
def includesOf (fileReader : String → Option (List Expr))
    (resolveLabel : String → String) (p : String) : List String :=
  match fileReader p with
  | none => []
  | some bf => (collectApparentNamesAndIncludes bf).2.map resolveLabel

/-! ## Helper lemmas -/

/-- A fold that conditionally appends is the initial accumulator followed by
the filterMap of the step function. -/
theorem foldl_filterMap_eq {α β : Type} (g : α → Option β) :
    ∀ (l : List α) (acc : List β),
      l.foldl (fun a x => match g x with | some b => a ++ [b] | none => a) acc
        = acc ++ l.filterMap g := by
  intro l
  induction l with
  | nil => intro acc; simp
  | cons x xs ih =>
    intro acc
    cases hg : g x <;> simp [List.filterMap_cons, hg, ih]

/-- A fold that appends a block per element is the initial accumulator
followed by the concatenation of the blocks. -/
theorem foldl_append_blocks {α β : Type} (g : α → List β) :
    ∀ (l : List α) (acc : List β),
      l.foldl (fun a x => a ++ g x) acc = acc ++ (l.map g).flatten := by
  intro l
  induction l with
  | nil => intro acc; simp
  | cons x xs ih => intro acc; simp [ih]

/-- seenRepos is the concatenation of each call's per-call contribution. -/
theorem seenRepos_eq_flatten (useRepos : List CallExpr) :
    seenRepos useRepos
      = (useRepos.map (fun ur =>
          if ur.args.isEmpty then [] else ur.args.tail.map repoFromUseRepoArg)).flatten := by
  have hfun : (fun (acc : List String) (ur : CallExpr) =>
        if ur.args.isEmpty then acc else acc ++ ur.args.tail.map repoFromUseRepoArg)
      = (fun acc ur =>
        acc ++ (if ur.args.isEmpty then [] else ur.args.tail.map repoFromUseRepoArg)) := by
    funext acc ur
    by_cases h : ur.args.isEmpty <;> simp [h]
  rw [seenRepos, hfun, foldl_append_blocks, List.nil_append]

/-- Setting an index of a list back to the element it already holds is the
identity. -/
theorem set_getElem?_self {α : Type} :
    ∀ (l : List α) (i : Nat) (a : α), l[i]? = some a → l.set i a = l := by
  intro l
  induction l with
  | nil => intro i a h; cases h
  | cons x xs ih =>
    intro i a h
    cases i with
    | zero =>
      simp only [List.getElem?_cons_zero, Option.some.injEq] at h
      subst h; rfl
    | succ j =>
      simp only [List.getElem?_cons_succ] at h
      simp only [List.set]
      rw [ih j a h]

/-- The invariant of the getLastUseRepo loop: every candidate it returns is
the element of the full list at the returned index. -/
theorem lastUseRepoAux_getElem? (full : List CallExpr) :
    ∀ (l : List CallExpr) (i : Nat) (best : Option (Nat × CallExpr)),
      full.drop i = l →
      (∀ j d, best = some (j, d) → full[j]? = some d) →
      ∀ j d, lastUseRepoAux l i best = some (j, d) → full[j]? = some d := by
  intro l
  induction l with
  | nil =>
    intro i best _ hbest j d h
    exact hbest j d h
  | cons c rest ih =>
    intro i best hdrop hbest j d h
    have hhead : full[i]? = some c := by
      have h0 : (full.drop i)[0]? = some c := by
        rw [hdrop, List.getElem?_cons_zero]
      rwa [List.getElem?_drop, Nat.add_zero] at h0
    have hdrop' : full.drop (i + 1) = rest := by
      have ht := congrArg List.tail hdrop
      simpa [List.tail_drop] using ht
    cases best with
    | none =>
      have h' : lastUseRepoAux rest (i + 1) (some (i, c)) = some (j, d) := h
      exact ih (i + 1) (some (i, c)) hdrop'
        (by intro j' d' hb'; cases hb'; exact hhead) j d h'
    | some jd =>
      obtain ⟨j0, d0⟩ := jd
      by_cases hcmp : c.posByte > d0.posByte
      · have h' : lastUseRepoAux rest (i + 1) (some (i, c)) = some (j, d) := by
          rw [← h]; simp [lastUseRepoAux, hcmp]
        exact ih (i + 1) (some (i, c)) hdrop'
          (by intro j' d' hb'; cases hb'; exact hhead) j d h'
      · have h' : lastUseRepoAux rest (i + 1) (some (j0, d0)) = some (j, d) := by
          rw [← h]; simp [lastUseRepoAux, hcmp]
        exact ih (i + 1) (some (j0, d0)) hdrop'
          (by intro j' d' hb'; exact hbest j' d' hb') j d h'

/-- getLastUseRepo returns an element of the list at the returned index. -/
theorem getLastUseRepo_getElem? (useRepos : List CallExpr) (j : Nat) (d : CallExpr) :
    getLastUseRepo useRepos = some (j, d) → useRepos[j]? = some d := by
  intro h
  exact lastUseRepoAux_getElem? useRepos useRepos 0 none rfl
    (by intro _ _ h'; cases h') j d h

/-- The getLastUseRepo loop never forgets a candidate. -/
theorem lastUseRepoAux_isSome :
    ∀ (l : List CallExpr) (i : Nat) (jd : Nat × CallExpr),
      (lastUseRepoAux l i (some jd)).isSome = true := by
  intro l
  induction l with
  | nil => intro i jd; rfl
  | cons c rest ih =>
    intro i jd
    obtain ⟨j, d⟩ := jd
    by_cases hcmp : c.posByte > d.posByte <;>
      simp [lastUseRepoAux, hcmp, ih]

/-- getLastUseRepo succeeds on a nonempty list. -/
theorem getLastUseRepo_isSome (useRepos : List CallExpr) (h : useRepos ≠ []) :
    (getLastUseRepo useRepos).isSome = true := by
  cases useRepos with
  | nil => exact absurd rfl h
  | cons c rest => exact lastUseRepoAux_isSome rest 1 (0, c)

/-! ## Claims -/

/-- Claim C2, counterexample: a call with an empty target list and an empty
requested repo-name list does not fail; it returns normally, because the
empty-repos no-op check precedes the empty-target check.  This refutes
"fails fatally regardless of the contents of the requested repo-name
list". -/
theorem claim_C2_counterexample :
    AddRepoUsages ([] : List CallExpr) ([] : List String) = some []
    ∧ AddRepoUsages ([] : List CallExpr) ([] : List String) ≠ none :=
  ⟨rfl, by simp [AddRepoUsages]⟩

/-- Claim C2, amended: AddRepoUsages fails fatally (modelled as none)
exactly when the target use_repo list is empty and the requested repo-name
list is nonempty; with an empty requested list the call is a no-op even on
an empty target list. -/
theorem claim_C2 : ∀ (useRepos : List CallExpr) (repos : List String),
    AddRepoUsages useRepos repos = none ↔ (useRepos = [] ∧ repos ≠ []) := by
  intro useRepos repos
  cases repos with
  | nil => simp [AddRepoUsages]
  | cons r rs =>
    cases useRepos with
    | nil => simp [AddRepoUsages]
    | cons u us =>
      cases hg : getLastUseRepo (u :: us) with
      | none => simp [AddRepoUsages, hg]
      | some jd =>
        obtain ⟨j, d⟩ := jd
        simp [AddRepoUsages, hg]

/-- Claim C5 (confirmed): RemoveRepoUsages preserves, for every statement,
the head (position-0 proxy reference) of its argument list, and the
remaining arguments of the result form a sublist (an order-preserving
selection) of the original remaining arguments. -/
theorem claim_C5 : ∀ (useRepos : List CallExpr) (repos : List String)
    (i : Nat) (c : CallExpr),
    useRepos[i]? = some c →
    ∃ c', (RemoveRepoUsages useRepos repos)[i]? = some c'
      ∧ c'.args.head? = c.args.head?
      ∧ c'.args.tail.Sublist c.args.tail := by
  intro useRepos repos i c hget
  cases hcase : (useRepos.isEmpty || repos.isEmpty) with
  | true =>
    refine ⟨c, ?_, rfl, List.Sublist.refl _⟩
    rw [RemoveRepoUsages, if_pos hcase]
    exact hget
  | false =>
    refine ⟨removeReposFromCall repos c, ?_, ?_, ?_⟩
    · rw [RemoveRepoUsages, if_neg (by rw [hcase]; exact Bool.false_ne_true)]
      rw [List.getElem?_map, hget]
      rfl
    · rw [removeReposFromCall]
      cases hargs : c.args with
      | nil => simp [hargs]
      | cons a t => simp [hargs]
    · rw [removeReposFromCall]
      cases hargs : c.args with
      | nil => simp [hargs]
      | cons a t =>
        simp only [hargs, List.isEmpty_cons, Bool.false_eq_true, if_false,
          List.take, List.tail_cons]
        exact List.filter_sublist t

/-- Claim C5 witness: removing "a" from use_repo(ext, "a", "b") keeps the
proxy reference at position 0 and the survivors in order. -/
theorem claim_C5_witness :
    ∃ c', (RemoveRepoUsages
        [⟨.ident "use_repo", [.ident "ext", .str "a", .str "b"], 0⟩] ["a"])[0]?
        = some c'
      ∧ c'.args.head? = some (Expr.ident "ext")
      ∧ c'.args.tail.Sublist [Expr.str "a", Expr.str "b"] := by
  obtain ⟨c', h1, h2, h3⟩ := claim_C5
    [⟨.ident "use_repo", [.ident "ext", .str "a", .str "b"], 0⟩] ["a"] 0
    ⟨.ident "use_repo", [.ident "ext", .str "a", .str "b"], 0⟩ (by simp)
  exact ⟨c', h1, h2, h3⟩

/-- Claim C7 (confirmed): a use_extension argument sets a boolean keyword
flag exactly when it is a keyword assignment whose left-hand side is the
identifier bearing the flag's name and whose right-hand side is anything
but the literal identifier False; in particular every non-False right-hand
side form (variable references, strings, nested expressions) yields
true. -/
theorem claim_C7 : ∀ (arg : Expr) (flag : String),
    parseBooleanKeywordArg arg flag = true
      ↔ ∃ rhs, arg = .assign (.ident flag) rhs ∧ rhs ≠ .ident "False" := by
  intro arg flag
  cases arg with
  | ident n => simp [parseBooleanKeywordArg]
  | str v => simp [parseBooleanKeywordArg]
  | call x args pos => simp [parseBooleanKeywordArg]
  | dot x f => simp [parseBooleanKeywordArg]
  | assign lhs rhs =>
    cases lhs with
    | ident a =>
      by_cases ha : a = flag
      · subst ha
        cases rhs with
        | ident v =>
          simp [parseBooleanKeywordArg]
        | str v => simp [parseBooleanKeywordArg]
        | call x args pos => simp [parseBooleanKeywordArg]
        | assign l r => simp [parseBooleanKeywordArg]
        | dot x f => simp [parseBooleanKeywordArg]
      · simp [parseBooleanKeywordArg, ha, Ne.symm ha]
    | str v => simp [parseBooleanKeywordArg]
    | call x args pos => simp [parseBooleanKeywordArg]
    | assign l r => simp [parseBooleanKeywordArg]
    | dot x f => simp [parseBooleanKeywordArg]

/-- Claim C10 (confirmed): the seen set is computed once before appending,
so a name requested n times and absent from all existing arguments is
appended n times as bare string arguments to the target statement. -/
theorem claim_C10 : ∀ (useRepos : List CallExpr) (x : String) (n j : Nat)
    (d : CallExpr),
    useRepos ≠ [] → 0 < n → (seenRepos useRepos).contains x = false →
    getLastUseRepo useRepos = some (j, d) →
    AddRepoUsages useRepos (List.replicate n x)
      = some (useRepos.set j
          { d with args := d.args ++ List.replicate n (Expr.str x) }) := by
  intro useRepos x n j d hne hn hseen hlast
  obtain ⟨m, rfl⟩ : ∃ m, n = m + 1 := ⟨n - 1, by omega⟩
  cases useRepos with
  | nil => exact absurd rfl hne
  | cons u us =>
    have hrep : (List.replicate (m + 1) x).isEmpty = false := rfl
    have hfilter : (List.replicate (m + 1) x).filter
        (fun r => !(seenRepos (u :: us)).contains r) = List.replicate (m + 1) x := by
      refine List.filter_eq_self.mpr ?_
      intro a ha
      rw [List.eq_of_mem_replicate ha, hseen]
      rfl
    simp only [AddRepoUsages, hrep, List.isEmpty_cons, Bool.false_eq_true,
      if_false, hlast, hfilter, List.map_replicate]

/-- Claim C10 witness: requesting "foo" twice on a use_repo call that does
not yet import it appends two duplicate string arguments. -/
theorem claim_C10_witness :
    AddRepoUsages [⟨.ident "use_repo", [.ident "ext"], 0⟩] ["foo", "foo"]
      = some [⟨.ident "use_repo", [.ident "ext", .str "foo", .str "foo"], 0⟩] := by
  have h := claim_C10 [⟨.ident "use_repo", [.ident "ext"], 0⟩] "foo" 2 0
    ⟨.ident "use_repo", [.ident "ext"], 0⟩ (by simp) (by omega) rfl rfl
  exact h

/-- A nonempty list is not isEmpty. -/
theorem isEmpty_eq_false_of_ne_nil {α : Type} {l : List α} (h : l ≠ []) :
    l.isEmpty = false := by
  cases l with
  | nil => exact absurd rfl h
  | cons a t => rfl

/-- Appending the empty argument block leaves a call unchanged. -/
theorem callExpr_append_nil (d : CallExpr) : { d with args := d.args ++ [] } = d := by
  cases d
  simp

/-- Membership in the seen set, through a member call's argument tail. -/
theorem mem_seenRepos {useRepos : List CallExpr} {c : CallExpr} {y : String}
    (hc : c ∈ useRepos) (hargs : c.args.isEmpty = false)
    (hy : y ∈ c.args.tail.map repoFromUseRepoArg) : y ∈ seenRepos useRepos := by
  rw [seenRepos_eq_flatten, List.mem_flatten]
  refine ⟨if c.args.isEmpty then [] else c.args.tail.map repoFromUseRepoArg,
    List.mem_map_of_mem _ hc, ?_⟩
  rw [if_neg (by rw [hargs]; exact Bool.false_ne_true)]
  exact hy

/-- contains on a string list is membership. -/
theorem contains_eq_true_iff (l : List String) (y : String) :
    l.contains y = true ↔ y ∈ l :=
  List.elem_iff

/-- An element read through getElem? belongs to the list. -/
theorem mem_of_getElem?_eq_some {α : Type} {l : List α} {i : Nat} {a : α}
    (h : l[i]? = some a) : a ∈ l := by
  obtain ⟨hlt, he⟩ := List.getElem?_eq_some_iff.mp h
  subst he
  exact List.getElem_mem hlt

/-- Claim C4 (confirmed): on well-formed use_repo statements (each carrying
its leading proxy-reference argument), adding a repo name twice is the
same as adding it once: the second application finds the name in the seen
set and changes nothing. -/
theorem claim_C4 : ∀ (useRepos : List CallExpr) (x : String)
    (S' : List CallExpr),
    useRepos ≠ [] → (∀ c ∈ useRepos, c.args ≠ []) →
    AddRepoUsages useRepos [x] = some S' →
    AddRepoUsages S' [x] = some S' := by
  intro useRepos x S' hne hwf hfirst
  have hfirst0 := hfirst
  have hur : useRepos.isEmpty = false := isEmpty_eq_false_of_ne_nil hne
  obtain ⟨⟨j, d⟩, hlast⟩ : ∃ jd, getLastUseRepo useRepos = some jd := by
    have hs := getLastUseRepo_isSome useRepos hne
    cases hx : getLastUseRepo useRepos with
    | none => rw [hx] at hs; cases hs
    | some jd => exact ⟨jd, rfl⟩
  have hjd : useRepos[j]? = some d := getLastUseRepo_getElem? useRepos j d hlast
  have hdmem : d ∈ useRepos := mem_of_getElem?_eq_some hjd
  simp only [AddRepoUsages, List.isEmpty_cons, Bool.false_eq_true, if_false,
    hur, hlast, List.filter_cons, List.filter_nil] at hfirst
  by_cases hx : (seenRepos useRepos).contains x = true
  · -- the name was already present: the first application already changed nothing
    rw [hx] at hfirst
    simp only [Bool.not_true, Bool.false_eq_true, if_false, List.map_nil,
      callExpr_append_nil] at hfirst
    rw [set_getElem?_self useRepos j d hjd] at hfirst
    obtain rfl : useRepos = S' := Option.some.injEq .. ▸ hfirst
    exact hfirst0
  · -- the name was appended; the second application sees it
    rw [Bool.not_eq_true] at hx
    rw [hx] at hfirst
    simp only [Bool.not_false, if_true, List.map_cons, List.map_nil] at hfirst
    obtain rfl : useRepos.set j { d with args := d.args ++ [Expr.str x] } = S' := by
      exact Option.some.injEq .. ▸ hfirst
    set e : CallExpr := { d with args := d.args ++ [Expr.str x] } with he
    have hlen : j < useRepos.length := (List.getElem?_eq_some_iff.mp hjd).1
    have hne' : useRepos.set j e ≠ [] := by
      intro h0
      apply hne
      have hl := congrArg List.length h0
      rw [List.length_set] at hl
      exact List.length_eq_zero.mp hl
    have hemem : e ∈ useRepos.set j e :=
      mem_of_getElem?_eq_some (List.getElem?_set_self hlen)
    have hdargs : d.args ≠ [] := hwf d hdmem
    obtain ⟨a, t, hat⟩ : ∃ a t, d.args = a :: t := by
      cases hargs : d.args with
      | nil => exact absurd hargs hdargs
      | cons a t => exact ⟨a, t, rfl⟩
    have hxmem : x ∈ seenRepos (useRepos.set j e) := by
      refine mem_seenRepos hemem ?_ ?_
      · rw [he, hat]; rfl
      · rw [he, hat]
        simp only [List.cons_append, List.tail_cons, List.map_append, List.map_cons,
          List.map_nil]
        exact List.mem_append.mpr (Or.inr (by simp [repoFromUseRepoArg]))
    have hcont : (seenRepos (useRepos.set j e)).contains x = true :=
      (contains_eq_true_iff _ _).mpr hxmem
    obtain ⟨⟨j2, d2⟩, hlast2⟩ : ∃ jd, getLastUseRepo (useRepos.set j e) = some jd := by
      have hs := getLastUseRepo_isSome _ hne'
      cases hx2 : getLastUseRepo (useRepos.set j e) with
      | none => rw [hx2] at hs; cases hs
      | some jd => exact ⟨jd, rfl⟩
    have hjd2 : (useRepos.set j e)[j2]? = some d2 :=
      getLastUseRepo_getElem? _ j2 d2 hlast2
    simp only [AddRepoUsages, List.isEmpty_cons, Bool.false_eq_true, if_false,
      isEmpty_eq_false_of_ne_nil hne', hlast2, List.filter_cons, List.filter_nil,
      hcont, Bool.not_true, List.map_nil, callExpr_append_nil]
    rw [set_getElem?_self _ j2 d2 hjd2]

/-- Claim C4 witness: adding "foo" twice to use_repo(ext, "bar") is the
same as adding it once. -/
theorem claim_C4_witness :
    AddRepoUsages [⟨.ident "use_repo", [.ident "ext", .str "bar", .str "foo"], 0⟩] ["foo"]
      = some [⟨.ident "use_repo", [.ident "ext", .str "bar", .str "foo"], 0⟩] := by
  have h := claim_C4 [⟨.ident "use_repo", [.ident "ext", .str "bar"], 0⟩] "foo"
    [⟨.ident "use_repo", [.ident "ext", .str "bar", .str "foo"], 0⟩]
    (by simp) (by intro c hc; simp at hc; rw [hc]; simp) rfl
  exact h

/-- For a nonempty name p, a statement whose parseUseExtension proxy is p
is a use_extension assignment binding p. -/
theorem definesProxy_of_parse (s : Expr) (p : String) (hp : p ≠ "")
    (h : (parseUseExtension s).proxy = p) : definesProxy s p = true := by
  cases s with
  | assign lhs rhs =>
    cases lhs with
    | ident q =>
      cases rhs with
      | call cx args pos =>
        cases cx with
        | ident fn =>
          by_cases hfn : fn = "use_extension"
          · subst hfn
            rcases args with _ | ⟨a0, _ | ⟨a1, rest⟩⟩
            · exact absurd h.symm hp
            · cases a0 <;> exact absurd h.symm hp
            · cases a0 <;> cases a1 <;>
                first
                  | exact absurd h.symm hp
                  | (have hq : q = p := h
                     subst hq
                     simp [definesProxy])
          · have hbne : (fn != "use_extension") = true := bne_iff_ne.mpr hfn
            simp only [parseUseExtension, hbne, if_true] at h
            exact absurd h.symm hp
        | str v => exact absurd h.symm hp
        | call a b c => exact absurd h.symm hp
        | assign a b => exact absurd h.symm hp
        | dot a b => exact absurd h.symm hp
      | ident v => exact absurd h.symm hp
      | str v => exact absurd h.symm hp
      | assign a b => exact absurd h.symm hp
      | dot a b => exact absurd h.symm hp
    | str v => exact absurd h.symm hp
    | call a b c => exact absurd h.symm hp
    | assign a b => exact absurd h.symm hp
    | dot a b => exact absurd h.symm hp
  | ident n => exact absurd h.symm hp
  | str v => exact absurd h.symm hp
  | call a b c => exact absurd h.symm hp
  | dot a b => exact absurd h.symm hp

/-- The scan of Proxies agrees pointwise with the spec-side description of
the matching proxies. -/
theorem Proxies_eq_proxiesMatchingUsage (normalize : String → String → String)
    (stmts : List Expr) (u : UseExt) :
    Proxies normalize stmts u.bzlFile u.extName u.dev
      = proxiesMatchingUsage normalize stmts u := by
  simp only [Proxies, proxiesMatchingUsage]
  refine List.filterMap_congr ?_
  intro x _
  cases hpx : (parseUseExtension x).proxy == "" <;>
    cases hdev : (parseUseExtension x).dev == u.dev <;>
    cases hiso : (parseUseExtension x).isolate <;>
    cases hbzl : normalize (parseUseExtension x).bzlFile (getApparentModuleName stmts)
        == normalize u.bzlFile (getApparentModuleName stmts) <;>
    cases hnm : (parseUseExtension x).extName == u.extName <;>
    simp [bne, hpx, hdev, hiso, hbzl, hnm]

/-- The manifest of the C3 counterexample: a non-use_extension statement
followed by a use_extension assignment with empty file and name. -/
def exC3stmts : List Expr :=
  [.ident "x",
   .assign (.ident "p1") (.call (.ident "use_extension") [.str "", .str ""] 0)]

/-- Claim C3, counterexample: for the empty proxy name, no use_extension
assignment defines it in this manifest, yet AllProxies is nonempty: the
zero value of parseUseExtension on the identifier statement collides with
the queried name, and the scan then returns the empty-identity proxies. -/
theorem claim_C3_counterexample :
    (∀ s ∈ exC3stmts, definesProxy s "" = false)
    ∧ AllProxies (fun raw _ => raw) exC3stmts "" ≠ []
    ∧ AllProxies (fun raw _ => raw) exC3stmts "" = ["p1"] := by
  have h3 : AllProxies (fun raw _ => raw) exC3stmts "" = ["p1"] := rfl
  refine ⟨by decide, ?_, h3⟩
  rw [h3]
  simp

/-- Claim C3, amended to nonempty proxy names: if no use_extension
assignment defines p, AllProxies returns the empty list; if the first
assignment defining p is isolated, it returns the singleton; otherwise it
returns, in file order, the proxies of all non-isolated use_extension
assignments whose normalized bzl file, exported name and dev_dependency
flag equal those of p's assignment. -/
theorem claim_C3 : ∀ (normalize : String → String → String)
    (stmts : List Expr) (p : String), p ≠ "" →
    ((∀ s ∈ stmts, definesProxy s p = false) → AllProxies normalize stmts p = [])
    ∧ (∀ s, stmts.find? (fun t => (parseUseExtension t).proxy == p) = some s →
        ((parseUseExtension s).isolate = true → AllProxies normalize stmts p = [p])
        ∧ ((parseUseExtension s).isolate = false →
            AllProxies normalize stmts p
              = proxiesMatchingUsage normalize stmts (parseUseExtension s))) := by
  intro normalize stmts p hp
  constructor
  · intro hnone
    have hfind : stmts.find? (fun t => (parseUseExtension t).proxy == p) = none := by
      rw [List.find?_eq_none]
      intro t ht hbeq
      have hpx : (parseUseExtension t).proxy = p := beq_iff_eq.mp hbeq
      have hdp := definesProxy_of_parse t p hp hpx
      rw [hnone t ht] at hdp
      cases hdp
    simp only [AllProxies, hfind]
  · intro s hfind
    constructor
    · intro hiso
      simp only [AllProxies, hfind, hiso, if_true]
    · intro hiso
      simp only [AllProxies, hfind, hiso, Bool.false_eq_true, if_false]
      exact Proxies_eq_proxiesMatchingUsage normalize stmts (parseUseExtension s)

/-- The manifest of the spec's two-proxy example: p1 and p2 both bind
use_extension("a.bzl", "e"), neither dev nor isolated. -/
def exTwoProxies : List Expr :=
  [.assign (.ident "p1") (.call (.ident "use_extension") [.str "a.bzl", .str "e"] 0),
   .assign (.ident "p2") (.call (.ident "use_extension") [.str "a.bzl", .str "e"] 10)]

/-- Claim C3 witness: on the spec's two-proxy example, expanding p1 yields
[p1, p2], equal to the spec-side matching-proxies scan. -/
theorem claim_C3_witness :
    AllProxies (fun raw _ => raw) exTwoProxies "p1" = ["p1", "p2"]
    ∧ AllProxies (fun raw _ => raw) exTwoProxies "p1"
        = proxiesMatchingUsage (fun raw _ => raw) exTwoProxies
            (parseUseExtension (.assign (.ident "p1")
              (.call (.ident "use_extension") [.str "a.bzl", .str "e"] 0))) := by
  have h := (claim_C3 (fun raw _ => raw) exTwoProxies "p1" (by decide)).2
    (.assign (.ident "p1") (.call (.ident "use_extension") [.str "a.bzl", .str "e"] 0))
    rfl
  have h2 := h.2 rfl
  exact ⟨h2.trans rfl, h2⟩

/-- When no statement is a usage, the lastProxyUsage loop keeps its
accumulator. -/
theorem lastUsageAux_of_all_none (proxies : List String) :
    ∀ (l : List Expr) (i : Nat) (best : Option (Nat × String)),
      (∀ s ∈ l, usageProxy proxies s = none) →
      lastUsageAux proxies l i best = best := by
  intro l
  induction l with
  | nil => intro i best _; rfl
  | cons s rest ih =>
    intro i best hall
    have hs : usageProxy proxies s = none := hall s (by simp)
    have hrest : ∀ t ∈ rest, usageProxy proxies t = none := by
      intro t ht; exact hall t (by simp [ht])
    show lastUsageAux proxies rest (i + 1)
        (match usageProxy proxies s with
          | some p => some (i, p)
          | none => best) = best
    rw [hs]
    exact ih (i + 1) best hrest

/-- The lastProxyUsage loop returns the index and proxy of the last usage
when everything after index j is not a usage. -/
theorem lastUsageAux_last (proxies : List String) :
    ∀ (l : List Expr) (i : Nat) (best : Option (Nat × String)) (j : Nat)
      (s : Expr) (p : String),
      l[j]? = some s → usageProxy proxies s = some p →
      (∀ k t, j < k → l[k]? = some t → usageProxy proxies t = none) →
      lastUsageAux proxies l i best = some (i + j, p) := by
  intro l
  induction l with
  | nil =>
    intro i best j s p hget
    exact absurd hget (by simp)
  | cons a rest ih =>
    intro i best j s p hget hup hafter
    cases j with
    | zero =>
      obtain rfl : a = s := by simpa using hget
      show lastUsageAux proxies rest (i + 1)
          (match usageProxy proxies a with
            | some q => some (i, q)
            | none => best) = some (i + 0, p)
      rw [hup]
      have hrest : ∀ t ∈ rest, usageProxy proxies t = none := by
        intro t ht
        obtain ⟨k, hk⟩ := List.mem_iff_getElem?.mp ht
        exact hafter (k + 1) t (by omega)
          (by simpa [List.getElem?_cons_succ] using hk)
      rw [lastUsageAux_of_all_none proxies rest (i + 1) _ hrest]
      rfl
    | succ j' =>
      rw [List.getElem?_cons_succ] at hget
      have hafter' : ∀ k t, j' < k → rest[k]? = some t →
          usageProxy proxies t = none := by
        intro k t hk hkt
        exact hafter (k + 1) t (by omega)
          (by simpa [List.getElem?_cons_succ] using hkt)
      have h' := ih (i + 1)
        (match usageProxy proxies a with
          | some q => some (i, q)
          | none => best) j' s p hget hup hafter'
      have harith : i + 1 + j' = i + (j' + 1) := by omega
      rw [harith] at h'
      exact h'

/-- The index returned by the lastProxyUsage loop is in range. -/
theorem lastUsageAux_lt (proxies : List String) :
    ∀ (l : List Expr) (i : Nat) (best : Option (Nat × String)),
      (∀ j p, best = some (j, p) → j < i) →
      ∀ j p, lastUsageAux proxies l i best = some (j, p) → j < i + l.length := by
  intro l
  induction l with
  | nil =>
    intro i best hb j p h
    have := hb j p h
    simpa using Nat.lt_of_lt_of_le this (by omega)
  | cons a rest ih =>
    intro i best hb j p h
    have h' : lastUsageAux proxies rest (i + 1)
        (match usageProxy proxies a with
          | some q => some (i, q)
          | none => best) = some (j, p) := h
    have hb' : ∀ j' p',
        (match usageProxy proxies a with
          | some q => some (i, q)
          | none => best) = some (j', p') → j' < i + 1 := by
      cases hu : usageProxy proxies a with
      | some q =>
        intro j' p' hbe
        cases hbe
        omega
      | none =>
        intro j' p' hbe
        have := hb j' p' hbe
        omega
    have := ih (i + 1) _ hb' j p h'
    simp only [List.length_cons]
    omega

/-- The index of lastProxyUsage is within the statement sequence. -/
theorem lastProxyUsage_lt (stmts : List Expr) (proxies : List String)
    (j : Nat) (p : String)
    (h : lastProxyUsage stmts proxies = some (j, p)) : j < stmts.length := by
  have := lastUsageAux_lt proxies stmts 0 none (by intro _ _ h'; cases h') j p h
  simpa using this

/-- The view of the slice returned by a Go append at offset i: the retained
prefix followed by the appended elements, in both the in-place and the
reallocating branch. -/
theorem goAppend_fst_view (arr : List Expr) (i : Nat) (elems : List Expr)
    (hi : i ≤ arr.length) :
    ((goAppend ⟨arr, i⟩ elems).1).view = arr.take i ++ elems := by
  simp only [goAppend]
  have h1 : (arr.take i).length = i := by rw [List.length_take]; omega
  by_cases hc : i + elems.length ≤ arr.length
  · rw [if_pos hc]
    simp only [GoSlice.view, writeAt]
    rw [List.take_left' (by rw [List.length_append, h1])]
  · rw [if_neg hc]
    simp only [GoSlice.view]
    rw [List.take_of_length_le (by rw [List.length_append, h1])]

/-- Writing at an offset past the first n cells leaves the first n cells
unchanged. -/
theorem writeAt_take_of_le (arr : List Expr) (i n : Nat) (elems : List Expr)
    (hni : n ≤ i) (hia : i ≤ arr.length) :
    (writeAt arr i elems).take n = arr.take n := by
  simp only [writeAt]
  rw [List.take_append_eq_append_take, List.take_append_eq_append_take,
    List.take_take, inf_eq_left.mpr hni, List.length_take, inf_eq_left.mpr hia,
    Nat.sub_eq_zero_of_le hni, List.take_zero, List.append_nil,
    List.length_append, List.length_take, inf_eq_left.mpr hia,
    Nat.sub_eq_zero_of_le (by omega : n ≤ i + elems.length), List.take_zero,
    List.append_nil]

/-- The statement sequence observed through a file's slice has the slice
length whenever the length is within the backing array. -/
theorem view_length (fStmt : GoSlice) (h : fStmt.len ≤ fStmt.arr.length) :
    fStmt.view.length = fStmt.len := by
  simp only [GoSlice.view, List.length_take]
  omega

/-- The examples for NewUseRepo: a tag call on p1, then an unrelated
statement, in a backing array with one cell of spare capacity. -/
def exTag : Expr := .call (.dot (.ident "p1") "t") [] 0

/-- A two-statement manifest slice whose backing array has capacity 3. -/
def exSlice : GoSlice := ⟨[exTag, .ident "y", .str "pad"], 2⟩

/-- The same two-statement manifest with no spare capacity. -/
def exSliceFull : GoSlice := ⟨[exTag, .ident "y"], 2⟩

/-- Claim C1, counterexample: with one spare capacity cell and the last
usage before the final statement, the insertion writes through the shared
backing array, and the holder of the original manifest slice no longer
observes the statements it held before: the final statement is replaced by
the spliced-in use_repo call. -/
theorem claim_C1_counterexample :
    ((NewUseRepo exSlice ["p1"]).2.2).take exSlice.len ≠ exSlice.view := by
  have h1 : ((NewUseRepo exSlice ["p1"]).2.2).take exSlice.len
      = [exTag, .call (.ident "use_repo") [.ident "p1"] 0] := rfl
  have h2 : exSlice.view = [exTag, .ident "y"] := rfl
  rw [h1, h2]
  intro h
  have h3 := List.cons.inj h
  have h4 := List.cons.inj h3.2
  exact Expr.noConfusion h4.1

/-- Claim C1, amended: when NewUseRepo performs an insertion, the original
manifest's observed statement sequence is unchanged provided the backing
array has no spare capacity (the append then reallocates) or the last
usage is the final statement (the write lands past the original length);
with spare capacity and an interior insertion point the original sequence
is destructively spliced, as the counterexample shows. -/
theorem claim_C1 : ∀ (fStmt : GoSlice) (proxies : List String) (i : Nat)
    (p : String),
    fStmt.len ≤ fStmt.arr.length →
    lastProxyUsage fStmt.view proxies = some (i, p) →
    (fStmt.arr.length = fStmt.len ∨ i + 1 = fStmt.len) →
    ((NewUseRepo fStmt proxies).2.2).take fStmt.len = fStmt.view := by
  intro fStmt proxies i p hlen hlp hcond
  have hi : i < fStmt.view.length := lastProxyUsage_lt _ _ _ _ hlp
  have hviewlen : fStmt.view.length = fStmt.len := view_length fStmt hlen
  simp only [NewUseRepo, hlp]
  have hL : (Expr.call (.ident "use_repo") [.ident p] 0
      :: fStmt.view.drop (i + 1)).length = fStmt.len - i := by
    simp only [List.length_cons, List.length_drop]
    omega
  simp only [goAppend]
  by_cases hc : i + 1 + (Expr.call (.ident "use_repo") [.ident p] 0
      :: fStmt.view.drop (i + 1)).length ≤ fStmt.arr.length
  · rw [if_pos hc]
    have hle : fStmt.len ≤ i + 1 := by
      rcases hcond with hcap | hins
      · rw [hL, hcap] at hc
        omega
      · omega
    exact writeAt_take_of_le _ _ _ _ hle (by omega)
  · rw [if_neg hc]
    rfl

/-- Claim C1 witness: with no spare capacity, the original manifest's
observed sequence is untouched by the insertion. -/
theorem claim_C1_witness :
    ((NewUseRepo exSliceFull ["p1"]).2.2).take exSliceFull.len
      = exSliceFull.view := by
  exact claim_C1 exSliceFull ["p1"] 0 "p1" (by decide) rfl (Or.inl rfl)

/-- Claim C6 (confirmed): when no statement uses one of the proxies,
NewUseRepo returns the manifest unchanged, no new statement, and an
untouched backing array; otherwise it returns the synthesized
use_repo(proxy) call for the proxy of the lexically last usage, and the
returned manifest's statement sequence is the original with that call
spliced in immediately after the last usage's index. -/
theorem claim_C6 : ∀ (fStmt : GoSlice) (proxies : List String),
    fStmt.len ≤ fStmt.arr.length →
    ((∀ s ∈ fStmt.view, usageProxy proxies s = none) →
        NewUseRepo fStmt proxies = (fStmt, none, fStmt.arr))
    ∧ (∀ (j : Nat) (s : Expr) (p : String),
        fStmt.view[j]? = some s → usageProxy proxies s = some p →
        (∀ (k : Nat) (t : Expr), j < k → fStmt.view[k]? = some t →
            usageProxy proxies t = none) →
        (NewUseRepo fStmt proxies).2.1
            = some (.call (.ident "use_repo") [.ident p] 0)
        ∧ ((NewUseRepo fStmt proxies).1).view
            = fStmt.view.take (j + 1)
              ++ .call (.ident "use_repo") [.ident p] 0
                :: fStmt.view.drop (j + 1)) := by
  intro fStmt proxies hlen
  constructor
  · intro hnone
    have hlp : lastProxyUsage fStmt.view proxies = none :=
      lastUsageAux_of_all_none _ _ 0 none hnone
    simp only [NewUseRepo, hlp]
  · intro j s p hget hup hafter
    have hlp : lastProxyUsage fStmt.view proxies = some (j, p) := by
      have h := lastUsageAux_last proxies fStmt.view 0 none j s p hget hup hafter
      simpa using h
    have hj : j < fStmt.view.length := (List.getElem?_eq_some_iff.mp hget).1
    have hviewlen : fStmt.view.length = fStmt.len := view_length fStmt hlen
    constructor
    · simp only [NewUseRepo, hlp]
    · simp only [NewUseRepo, hlp]
      rw [goAppend_fst_view fStmt.arr (j + 1) _ (by omega)]
      congr 1
      simp only [GoSlice.view, List.take_take]
      rw [inf_eq_left.mpr (by omega)]

/-- Claim C6 witness: inserting after the tag call p1.t() splices the new
use_repo(p1) call right after it in the returned manifest. -/
theorem claim_C6_witness :
    ((NewUseRepo exSlice ["p1"]).1).view
      = [exTag, .call (.ident "use_repo") [.ident "p1"] 0, .ident "y"] := by
  have hget : exSlice.view[0]? = some exTag := by
    rw [show exSlice.view = [exTag, Expr.ident "y"] from rfl, List.getElem?_cons_zero]
  have hafter : ∀ (k : Nat) (t : Expr), 0 < k → exSlice.view[k]? = some t →
      usageProxy ["p1"] t = none := by
    intro k t hk hkt
    have hklen : k < exSlice.view.length := (List.getElem?_eq_some_iff.mp hkt).1
    have hk1 : k = 1 := by
      have : exSlice.view.length = 2 := rfl
      omega
    subst hk1
    rw [show exSlice.view = [exTag, Expr.ident "y"] from rfl,
      List.getElem?_cons_succ, List.getElem?_cons_zero] at hkt
    obtain rfl : Expr.ident "y" = t := by simpa using hkt
    rfl
  have h := ((claim_C6 exSlice ["p1"] (by decide)).2 0 exTag "p1" hget rfl hafter).2
  exact h.trans rfl

/-- contains on a string list is false exactly on non-members. -/
theorem contains_eq_false_iff (l : List String) (y : String) :
    l.contains y = false ↔ y ∉ l := by
  rw [← contains_eq_true_iff]
  cases h : l.contains y <;> simp

/-- Filtering by a pointwise-smaller predicate yields at most as many
elements. -/
theorem length_filter_le_of_imp {α : Type} (p q : α → Bool)
    (hmono : ∀ y, q y = true → p y = true) :
    ∀ l : List α, (l.filter q).length ≤ (l.filter p).length := by
  intro l
  induction l with
  | nil => simp
  | cons a t ih =>
    rw [List.filter_cons, List.filter_cons]
    by_cases hpa : p a = true
    · rw [if_pos hpa]
      by_cases hqa : q a = true
      · rw [if_pos hqa]; simpa using ih
      · rw [if_neg hqa]; simp only [List.length_cons]; omega
    · have hqa : ¬(q a = true) := fun h => hpa (hmono a h)
      rw [if_neg hpa, if_neg hqa]; exact ih

/-- Filtering by a pointwise-smaller predicate that loses a member of the
list yields strictly fewer elements. -/
theorem length_filter_lt_of_witness {α : Type} (p q : α → Bool) :
    ∀ (l : List α) (x : α), (∀ y, q y = true → p y = true) → x ∈ l →
      p x = true → q x = false →
      (l.filter q).length < (l.filter p).length := by
  intro l
  induction l with
  | nil => intro x _ hx; cases hx
  | cons a t ih =>
    intro x hmono hx hpx hqx
    rcases List.mem_cons.mp hx with rfl | hxt
    · rw [List.filter_cons, List.filter_cons, if_pos hpx,
        if_neg (by rw [hqx]; exact Bool.false_ne_true)]
      have hle := length_filter_le_of_imp p q hmono t
      simp only [List.length_cons]
      omega
    · rw [List.filter_cons, List.filter_cons]
      by_cases hpa : p a = true
      · rw [if_pos hpa]
        by_cases hqa : q a = true
        · rw [if_pos hqa]
          have := ih x hmono hxt hpx hqx
          simp only [List.length_cons]
          omega
        · rw [if_neg hqa]
          have := ih x hmono hxt hpx hqx
          simp only [List.length_cons]
          omega
      · have hqa : ¬(q a = true) := fun h => hpa (hmono a h)
        rw [if_neg hpa, if_neg hqa]
        exact ih x hmono hxt hpx hqx

/-- Invariant of the traversal: the instrumented read list never repeats a
path, since a path is read only at the moment it enters the visited set. -/
theorem collectRun_reads_nodup (fr : String → Option (List Expr))
    (rl : String → String) :
    ∀ (fuel : Nat) (st : TraversalState),
      st.reads.Nodup → (∀ r ∈ st.reads, r ∈ st.seenFiles) →
      ((collectRun fr rl fuel st).readsOf).Nodup := by
  intro fuel
  induction fuel with
  | zero => intro st h _; exact h
  | succ n ih =>
    intro st hnd hsub
    cases hq : st.filesToProcess with
    | nil =>
      simp only [collectRun, hq, Outcome.readsOf]
      exact hnd
    | cons f rest =>
      simp only [collectRun, hq]
      by_cases hseen : st.seenFiles.contains f = true
      · rw [if_pos hseen]
        exact ih _ hnd hsub
      · rw [if_neg hseen]
        have hfseen : f ∉ st.seenFiles := by
          rw [← contains_eq_false_iff]
          cases h : st.seenFiles.contains f
          · rfl
          · exact absurd h hseen
        have hfreads : f ∉ st.reads := fun hmem => hfseen (hsub f hmem)
        have hnd' : (st.reads ++ [f]).Nodup := by
          rw [List.nodup_append]
          refine ⟨hnd, List.nodup_singleton f, ?_⟩
          intro a ha hb
          rw [List.mem_singleton] at hb
          subst hb
          exact hfreads ha
        cases hread : fr f with
        | none =>
          simp only [hread, Outcome.readsOf]
          exact hnd'
        | some bf =>
          simp only [hread]
          apply ih
          · exact hnd'
          · intro r hr
            rcases List.mem_append.mp hr with h1 | h2
            · exact List.mem_append.mpr (Or.inl (hsub r h1))
            · exact List.mem_append.mpr (Or.inr h2)

/-- Termination of the traversal: for any finite include-closed universe
containing the whole queue, some fuel completes the run; the measure is
the number of universe paths not yet visited, decreasing at every read. -/
theorem collectRun_fuel (fr : String → Option (List Expr)) (rl : String → String)
    (u : List String)
    (hcl : ∀ p ∈ u, ∀ q ∈ includesOf fr rl p, q ∈ u) :
    ∀ (n : Nat) (queue seen : List String)
      (names : List (String × String)) (reads : List String),
      (∀ x ∈ queue, x ∈ u) →
      (u.filter (fun x => !(seen.contains x))).length ≤ n →
      ∃ fuel,
        (collectRun fr rl fuel ⟨names, seen, queue, reads⟩).isOutOfFuel = false := by
  intro n
  induction n using Nat.strong_induction_on with
  | _ n ihn =>
    intro queue seen names reads hq hb
    revert hq
    induction queue generalizing names reads with
    | nil =>
      intro _
      exact ⟨1, rfl⟩
    | cons f rest ihq =>
      intro hq
      have hfu : f ∈ u := hq f (by simp)
      have hrest : ∀ x ∈ rest, x ∈ u := by
        intro x hx; exact hq x (by simp [hx])
      by_cases hseen : seen.contains f = true
      · obtain ⟨fuel, hfuel⟩ := ihq names reads hrest
        refine ⟨fuel + 1, ?_⟩
        show (collectRun fr rl (fuel + 1)
          ⟨names, seen, f :: rest, reads⟩).isOutOfFuel = false
        simp only [collectRun]
        rw [if_pos hseen]
        exact hfuel
      · have hsf : seen.contains f = false := by
          cases h : seen.contains f
          · rfl
          · exact absurd h hseen
        cases hread : fr f with
        | none =>
          refine ⟨1, ?_⟩
          show (collectRun fr rl 1
            ⟨names, seen, f :: rest, reads⟩).isOutOfFuel = false
          simp only [collectRun]
          rw [if_neg hseen]
          simp only [hread, Outcome.isOutOfFuel]
        | some bf =>
          have hlt : ((u.filter (fun x => !((seen ++ [f]).contains x))).length)
              < (u.filter (fun x => !(seen.contains x))).length := by
            apply length_filter_lt_of_witness _ _ u f
            · intro y hy
              rw [Bool.not_eq_true'] at hy ⊢
              rw [contains_eq_false_iff] at hy ⊢
              intro hmem
              exact hy (List.mem_append.mpr (Or.inl hmem))
            · exact hfu
            · rw [hsf]; rfl
            · have hmem : (seen ++ [f]).contains f = true :=
                (contains_eq_true_iff _ _).mpr (List.mem_append.mpr (Or.inr (by simp)))
              rw [hmem]; rfl
          have hq' : ∀ x ∈ rest ++ (collectApparentNamesAndIncludes bf).2.map rl,
              x ∈ u := by
            intro x hx
            rcases List.mem_append.mp hx with h1 | h2
            · exact hrest x h1
            · apply hcl f hfu
              rw [includesOf, hread]
              exact h2
          obtain ⟨fuel, hfuel⟩ := ihn
            ((u.filter (fun x => !((seen ++ [f]).contains x))).length)
            (by omega) _ (seen ++ [f])
            ((collectApparentNamesAndIncludes bf).1.foldl
              (fun m kv => insertMap m kv.1 kv.2) names)
            (reads ++ [f]) hq' (le_refl _)
          refine ⟨fuel + 1, ?_⟩
          show (collectRun fr rl (fuel + 1)
            ⟨names, seen, f :: rest, reads⟩).isOutOfFuel = false
          simp only [collectRun]
          rw [if_neg hseen]
          simp only [hread]
          exact hfuel

/-- The identity label resolution of the cycle example: include labels are
already repo-relative paths. -/
def exResolve (lbl : String) : String := lbl

/-- The two mutually including fragments of the cycle example: A declares
module(name = rules_a, repo_name = my_a) and includes B; B declares
bazel_dep(name = rules_b) and includes A; every other path is absent. -/
def exReaderAB (p : String) : Option (List Expr) :=
  if p == "A" then
    some [.call (.ident "module")
            [.assign (.ident "name") (.str "rules_a"),
             .assign (.ident "repo_name") (.str "my_a")] 0,
          .call (.ident "include") [.str "B"] 10]
  else if p == "B" then
    some [.call (.ident "bazel_dep") [.assign (.ident "name") (.str "rules_b")] 0,
          .call (.ident "include") [.str "A"] 10]
  else none

/-- Claim C8 (confirmed): (1) in every run, each resolved path is read at
most once; (2) whenever the queue lives in a finite include-closed
universe of paths — as with any finite filesystem — some fuel completes
the traversal, cycles and repeated includes notwithstanding; (3) on the
two mutually including fragments A and B, the traversal terminates and
returns the mapping merged from both fragments, having read each of A and
B exactly once. -/
theorem claim_C8 :
    (∀ (fr : String → Option (List Expr)) (rl : String → String)
        (root : String) (fuel : Nat),
        ((collectApparentNames fr rl root fuel).readsOf).Nodup)
    ∧ (∀ (fr : String → Option (List Expr)) (rl : String → String)
        (root : String) (u : List String),
        root ∈ u →
        (∀ p ∈ u, ∀ q ∈ includesOf fr rl p, q ∈ u) →
        ∃ fuel, (collectApparentNames fr rl root fuel).isOutOfFuel = false)
    ∧ collectApparentNames exReaderAB exResolve "A" 4
        = .done [("rules_a", "my_a"), ("rules_b", "rules_b")] ["A", "B"] := by
  refine ⟨?_, ?_, ?_⟩
  · intro fr rl root fuel
    exact collectRun_reads_nodup fr rl fuel _ List.nodup_nil
      (by intro r hr; cases hr)
  · intro fr rl root u hroot hcl
    exact collectRun_fuel fr rl u hcl
      ((u.filter (fun x => !(([] : List String).contains x))).length)
      [root] [] [] []
      (by intro x hx; rw [List.mem_singleton] at hx; subst hx; exact hroot)
      (le_refl _)
  · rfl

/-- Claim C8 witness: on the concrete A and B cycle, the traversal
provably terminates. -/
theorem claim_C8_witness :
    ∃ fuel, (collectApparentNames exReaderAB exResolve "A" fuel).isOutOfFuel
      = false := by
  exact claim_C8.2.1 exReaderAB exResolve "A" ["A", "B"] (by decide) (by decide)

/-- In a run whose prior reads were all present, a completed traversal has
read only present paths. -/
theorem collectRun_done_reads (fr : String → Option (List Expr))
    (rl : String → String) :
    ∀ (fuel : Nat) (st : TraversalState) (m : List (String × String))
      (r : List String),
      (∀ x ∈ st.reads, (fr x).isSome = true) →
      collectRun fr rl fuel st = .done m r →
      ∀ x ∈ r, (fr x).isSome = true := by
  intro fuel
  induction fuel with
  | zero => intro st m r _ h; cases h
  | succ n ih =>
    intro st m r hinv h
    cases hq : st.filesToProcess with
    | nil =>
      simp only [collectRun, hq] at h
      cases h
      exact hinv
    | cons f rest =>
      simp only [collectRun, hq] at h
      by_cases hseen : st.seenFiles.contains f = true
      · rw [if_pos hseen] at h
        exact ih { st with filesToProcess := rest } m r hinv h
      · rw [if_neg hseen] at h
        cases hread : fr f with
        | none =>
          simp only [hread] at h
          cases h
        | some bf =>
          simp only [hread] at h
          apply ih _ m r _ h
          intro x hx
          rcases List.mem_append.mp hx with h1 | h2
          · exact hinv x h1
          · rw [List.mem_singleton] at h2
            subst h2
            rw [hread]
            rfl

/-- Claim C9 (confirmed): a completed traversal implies every path it read
was present — no partial mapping can emerge from an absence — and an
absent root aborts the whole resolution immediately with the absent
outcome. -/
theorem claim_C9 :
    (∀ (fr : String → Option (List Expr)) (rl : String → String)
        (root : String) (fuel : Nat) (m : List (String × String))
        (r : List String),
        collectApparentNames fr rl root fuel = .done m r →
        ∀ x ∈ r, (fr x).isSome = true)
    ∧ (∀ (fr : String → Option (List Expr)) (rl : String → String)
        (root : String) (fuel : Nat), 0 < fuel → fr root = none →
        collectApparentNames fr rl root fuel = .absent [root]) := by
  constructor
  · intro fr rl root fuel m r h
    exact collectRun_done_reads fr rl fuel _ m r (by intro x hx; cases hx) h
  · intro fr rl root fuel hfuel hroot
    obtain ⟨k, rfl⟩ : ∃ k, fuel = k + 1 := ⟨fuel - 1, by omega⟩
    simp only [collectApparentNames, collectRun]
    rw [if_neg (by simp)]
    simp only [hroot]
    rfl

/-- Claim C9 witness: resolution from an absent root path returns the
absent outcome. -/
theorem claim_C9_witness :
    collectApparentNames exReaderAB exResolve "C" 1 = .absent ["C"] := by
  exact claim_C9.2 exReaderAB exResolve "C" 1 (by omega) rfl

end Bzlmod
